import Mathlib

/-!
Verification development for the lingua-rs language detector core
(src/alphabet.rs and src/detector.rs).

The detector pipeline is embedded shallowly: strings are lists of
characters, `f64` values are rationals, hash maps are association lists
built with the same `entry(..).or_insert(0) += 1` discipline as the
source, and the natural logarithm is an abstract parameter `ln` (none of
the claims depends on its numerical value).  Where the surrounding Rust
crate is not part of the sources (the `Language` catalog, the regex
constants of `constant.rs`, the script range tables of `script.rs`,
`ngram.rs` and `model.rs`), the corresponding definitions are modelled
from the specification and marked as such; they enter the development
only as parameters of the detector environment.

The iteration order of a freshly created Rust `HashMap` is arbitrary
(each map instance draws a new random hash state), so the one place
where the source consults that order — the choice of the most frequent
alphabet in `filter_languages_by_rules` — takes the order as an explicit
parameter `ord`.
-/

/-- The 22 script alphabets of `src/alphabet.rs`, in declaration order. -/
inductive Alphabet where
  | arabic
  | armenian
  | bengali
  | cyrillic
  | devanagari
  | georgian
  | greek
  | gujarati
  | gurmukhi
  | han
  | hangul
  | hebrew
  | hiragana
  | katakana
  | latin
  | tamil
  | telugu
  | thai
  | ethiopic
  | myanmar
  | malayalam
  | sinhala
  deriving DecidableEq, Repr

/-- `Alphabet::iter()` of the strum `EnumIter` derive: the constructors in
declaration order. -/
def alphabetList : List Alphabet :=
  [.arabic, .armenian, .bengali, .cyrillic, .devanagari, .georgian, .greek,
   .gujarati, .gurmukhi, .han, .hangul, .hebrew, .hiragana, .katakana, .latin,
   .tamil, .telugu, .thai, .ethiopic, .myanmar, .malayalam, .sinhala]

/-- Modelled from the spec: the character classes used by the regex
constants of `constant.rs` (which is not among the sources) and by the
standard library: Unicode punctuation `P*`, numbers `N*`, whitespace,
letters `L*`, and per-character lowercasing. -/
structure TextClasses where
  isPunct : Char → Bool
  isNum : Char → Bool
  isWs : Char → Bool
  isLetter : Char → Bool
  lowerChar : Char → Char

/-- `str::trim`: drop leading and trailing whitespace. -/
def trimWs (tc : TextClasses) (l : List Char) : List Char :=
  ((l.dropWhile tc.isWs).reverse.dropWhile tc.isWs).reverse

/-- Auxiliary for `collapseWs`; the flag records whether the previous
character was whitespace (i.e. the current run has already emitted its
single space). -/
def collapseWsAux (tc : TextClasses) : List Char → Bool → List Char
  | [], _ => []
  | c :: rest, prevWs =>
    if tc.isWs c then
      if prevWs then collapseWsAux tc rest true
      else ' ' :: collapseWsAux tc rest true
    else c :: collapseWsAux tc rest false

/-- `MULTIPLE_WHITESPACE.replace_all(text, " ")`: every maximal run of
whitespace becomes a single ASCII space. -/
def collapseWs (tc : TextClasses) (l : List Char) : List Char :=
  collapseWsAux tc l false

/-- `LanguageDetector::clean_up_input_text`: trim, lowercase, remove
punctuation, remove numbers, collapse whitespace runs to one space. -/
def cleanUpInputText (tc : TextClasses) (text : List Char) : List Char :=
  let trimmed := trimWs tc text
  let lowered := trimmed.map tc.lowerChar
  let withoutPunctuation := lowered.filter (fun c => !tc.isPunct c)
  let withoutNumbers := withoutPunctuation.filter (fun c => !tc.isNum c)
  collapseWs tc withoutNumbers

/-- `LanguageDetector::split_text_into_words`: split on single spaces if
the text contains a space, else the whole text is the single word. -/
def splitTextIntoWords (text : List Char) : List (List Char) :=
  if ' ' ∈ text then text.splitOn ' ' else [text]

/-- Modelled from the spec: the `NO_LETTER` regex of `constant.rs`
(not among the sources) matches exactly the texts that consist of one or
more characters none of which is a letter. -/
def noLetterMatch (tc : TextClasses) (l : List Char) : Bool :=
  !l.isEmpty && l.all (fun c => !tc.isLetter c)

/-- The static data surrounding the detector.  `charSet` is modelled
from the spec: the per-alphabet character sets materialized from the
script range tables of `script.rs` (not among the sources).  `catalog`,
`alphabetsOf`, `uniqueCharacters`, `chinese`, `japanese` are modelled
from the spec: the closed `Language` enumeration of `language.rs` (not
among the sources) with its per-language metadata.  `charsToLanguages`
is modelled from the spec: the static `CHARS_TO_LANGUAGES_MAPPING` table
of `constant.rs` (not among the sources), in its per-process iteration
order.  `langIdx` is the enum discriminant used by the derived ordering
on languages. -/
structure LinguaEnv (Lang : Type) where
  catalog : List Lang
  alphabetsOf : Lang → List Alphabet
  uniqueCharacters : Lang → Option (List Char)
  chinese : Lang
  japanese : Lang
  charsToLanguages : List (List Char × List Lang)
  charSet : Alphabet → Char → Bool
  langIdx : Lang → Nat

/-- `Alphabet::matches` via `CharSet::is_match`: every character of the
text lies in the alphabet's character set (vacuously true for `""`). -/
def alphabetMatches {Lang : Type} (env : LinguaEnv Lang) (a : Alphabet)
    (text : List Char) : Bool :=
  text.all (env.charSet a)

/-- Modelled from the spec: the `JAPANESE_CHARACTER_SET` constant of
`constant.rs` (not among the sources) is the union of the Hiragana,
Katakana and Han character sets. -/
def japaneseCharSet {Lang : Type} (env : LinguaEnv Lang) (c : Char) : Bool :=
  env.charSet .hiragana c || env.charSet .katakana c || env.charSet .han c

/-- `Alphabet::supported_languages`: the catalog languages whose alphabet
list contains this alphabet, in catalog iteration order. -/
def supportedLanguages {Lang : Type} (env : LinguaEnv Lang) (a : Alphabet) :
    List Lang :=
  env.catalog.filter (fun l => decide (a ∈ env.alphabetsOf l))

/-- `Alphabet::all_supporting_single_language`: the alphabets supported by
exactly one language of the whole catalog, mapped to that language. -/
def allSupportingSingleLanguage {Lang : Type} (env : LinguaEnv Lang) :
    List (Alphabet × Lang) :=
  alphabetList.filterMap (fun a =>
    match supportedLanguages env a with
    | [l] => some (a, l)
    | _ => none)

/-- The detector state of `src/detector.rs`.  `models` is modelled from
the spec: the per-order model store maps each n-gram of the given length
to its relative frequency, absent keys yielding `0`. -/
structure LanguageDetector (Lang : Type) where
  languages : List Lang
  minimumRelativeDistance : ℚ
  languagesWithUniqueCharacters : List Lang
  oneLanguageAlphabets : List (Alphabet × Lang)
  models : Nat → Lang → List Char → ℚ

/-- `LanguageDetector::from` (named `build` because `from` is reserved in
Lean): derive the unique-character languages and the one-language
alphabets from the configured set. -/
def LanguageDetector.build {Lang : Type} [DecidableEq Lang]
    (env : LinguaEnv Lang) (languages : List Lang)
    (minimumRelativeDistance : ℚ) (models : Nat → Lang → List Char → ℚ) :
    LanguageDetector Lang where
  languages := languages
  minimumRelativeDistance := minimumRelativeDistance
  languagesWithUniqueCharacters :=
    languages.filter (fun l => (env.uniqueCharacters l).isSome)
  oneLanguageAlphabets :=
    (allSupportingSingleLanguage env).filter (fun p => decide (p.2 ∈ languages))
  models := models

/-- Association-list lookup (the read side of the Rust hash maps). -/
def alookup {κ ν : Type} [DecidableEq κ] : List (κ × ν) → κ → Option ν
  | [], _ => none
  | p :: rest, k => if p.1 = k then some p.2 else alookup rest k

/-- `LanguageDetector::increment_counter`:
`counts.entry(key).or_insert(0) += 1` on an association list. -/
def incrementCounter {κ : Type} [DecidableEq κ] (counts : List (κ × Nat))
    (key : κ) : List (κ × Nat) :=
  match alookup counts key with
  | some _ => counts.map (fun p => if p.1 = key then (p.1, p.2 + 1) else p)
  | none => counts ++ [(key, 1)]

/-- Insertion step of the stable insertion sort used to model the stable
`sort_by` of the source (via itertools `sorted_by`). -/
def insertB {α : Type} (le : α → α → Bool) (a : α) : List α → List α
  | [] => [a]
  | b :: l => if le a b then a :: b :: l else b :: insertB le a l

/-- Stable sort: an element is placed before the first element of the
sorted tail it relates to, so elements equal under `le` keep their
original relative order, exactly like Rust's stable `sort_by`. -/
def sortB {α : Type} (le : α → α → Bool) : List α → List α
  | [] => []
  | a :: l => insertB le a (sortB le l)

/-- Modelled from the spec: `Ngram::range_of_lower_order_ngrams` of
`ngram.rs` (not among the sources) yields the prefixes of the n-gram
from its own length down to length 1. -/
def rangeOfLowerOrderNgrams (g : List Char) : List (List Char) :=
  (List.range g.length).map (fun j => g.take (g.length - j))

/-- `LanguageDetector::look_up_ngram_probability`: consult the model
store of the n-gram's own length. -/
def lookUpNgramProbability {Lang : Type} (d : LanguageDetector Lang)
    (language : Lang) (g : List Char) : ℚ :=
  d.models g.length language g

/-- `LanguageDetector::compute_sum_of_ngram_probabilities`: for each
n-gram take the first strictly positive frequency along its lower-order
prefixes, then sum the logarithms of the collected frequencies. -/
def computeSumOfNgramProbabilities {Lang : Type} (ln : ℚ → ℚ)
    (d : LanguageDetector Lang) (language : Lang)
    (ngrams : List (List Char)) : ℚ :=
  let probabilities := ngrams.filterMap (fun g =>
    ((rangeOfLowerOrderNgrams g).map (lookUpNgramProbability d language)).find?
      (fun p => decide (0 < p)))
  (probabilities.map ln).sum

/-- `LanguageDetector::compute_language_probabilities`: keep only the
languages whose summed log probability is strictly negative. -/
def computeLanguageProbabilities {Lang : Type} (ln : ℚ → ℚ)
    (d : LanguageDetector Lang) (ngrams : List (List Char))
    (filteredLanguages : List Lang) : List (Lang × ℚ) :=
  filteredLanguages.filterMap (fun l =>
    let sum := computeSumOfNgramProbabilities ln d l ngrams
    if sum < 0 then some (l, sum) else none)

/-- Maximal runs of letter characters of a text (auxiliary for the
test-data model). -/
def letterRunsAux (tc : TextClasses) : List Char → List Char → List (List Char)
  | [], acc => if acc.isEmpty then [] else [acc.reverse]
  | c :: rest, acc =>
    if tc.isLetter c then letterRunsAux tc rest (c :: acc)
    else if acc.isEmpty then letterRunsAux tc rest []
    else acc.reverse :: letterRunsAux tc rest []

/-- Maximal runs of letter characters of a text. -/
def letterRuns (tc : TextClasses) (l : List Char) : List (List Char) :=
  letterRunsAux tc l []

/-- All windows of length `k` of a run. -/
def ngramWindows (k : Nat) (run : List Char) : List (List Char) :=
  (List.range (run.length + 1 - k)).map (fun i => (run.drop i).take k)

/-- Modelled from the spec: `TestDataLanguageModel::from` of `model.rs`
(not among the sources): the set of distinct length-`k` n-grams obtained
by sliding a `k`-wide window across the contiguous letter runs of the
text. -/
def testDataNgrams (tc : TextClasses) (text : List Char) (k : Nat) :
    List (List Char) :=
  (((letterRuns tc text).filter (fun r => decide (k ≤ r.length))).flatMap
    (ngramWindows k)).dedup

/-- `LanguageDetector::count_unigrams`: for every candidate language,
count the unigrams of the test model with a positive frequency. -/
def countUnigrams {Lang : Type} [DecidableEq Lang] (d : LanguageDetector Lang)
    (unigrams : List (List Char)) (filteredLanguages : List Lang) :
    List (Lang × Nat) :=
  filteredLanguages.foldl (fun uc l =>
    unigrams.foldl (fun uc2 g =>
      if 0 < lookUpNgramProbability d l g then incrementCounter uc2 l else uc2)
      uc) []

/-- `LanguageDetector::sum_up_probabilities`: sum each candidate's value
across the per-order maps, divide by its unigram hit count when present,
and keep only non-zero results. -/
def sumUpProbabilities {Lang : Type} [DecidableEq Lang]
    (probabilities : List (List (Lang × ℚ))) (unigramCounts : List (Lang × Nat))
    (filteredLanguages : List Lang) : List (Lang × ℚ) :=
  filteredLanguages.filterMap (fun l =>
    let sum := (probabilities.map (fun m => ((alookup m l).getD 0))).sum
    let sum :=
      match alookup unigramCounts l with
      | some n => sum / (n : ℚ)
      | none => sum
    if sum ≠ 0 then some (l, sum) else none)

/-- Per-character step of the per-word counting in
`LanguageDetector::detect_language_with_rules`. -/
def processWordChar {Lang : Type} [DecidableEq Lang] (env : LinguaEnv Lang)
    (d : LanguageDetector Lang) (wlc : List (Lang × Nat)) (c : Char) :
    List (Lang × Nat) :=
  let hits := d.oneLanguageAlphabets.filter (fun al => env.charSet al.1 c)
  let wlc1 := hits.foldl (fun m al => incrementCounter m al.2) wlc
  if hits.isEmpty then
    if env.charSet .han c then incrementCounter wlc1 env.chinese
    else if japaneseCharSet env c then incrementCounter wlc1 env.japanese
    else if env.charSet .latin c || env.charSet .cyrillic c ||
        env.charSet .devanagari c then
      (d.languagesWithUniqueCharacters.filter (fun l =>
        decide (c ∈ (env.uniqueCharacters l).getD []))).foldl
        incrementCounter wlc1
    else wlc1
  else wlc1

/-- The per-word language counter of
`LanguageDetector::detect_language_with_rules`. -/
def wordLanguageCounts {Lang : Type} [DecidableEq Lang] (env : LinguaEnv Lang)
    (d : LanguageDetector Lang) (word : List Char) : List (Lang × Nat) :=
  word.foldl (processWordChar env d) []

/-- Descending-count comparison used by the stable sorts on counters. -/
def countDescLe {κ : Type} (p q : κ × Nat) : Bool :=
  decide (q.2 ≤ p.2)

/-- The word-verdict step of `LanguageDetector::detect_language_with_rules`,
folding one word into the total counter. -/
def creditWord {Lang : Type} [DecidableEq Lang] (env : LinguaEnv Lang)
    (d : LanguageDetector Lang) (tlc : List (Option Lang × Nat))
    (word : List Char) : List (Option Lang × Nat) :=
  let wlc := wordLanguageCounts env d word
  match wlc with
  | [] => incrementCounter tlc none
  | [p] =>
    if p.1 ∈ d.languages then incrementCounter tlc (some p.1)
    else incrementCounter tlc none
  | _ =>
    if (alookup wlc env.chinese).isSome && (alookup wlc env.japanese).isSome
    then incrementCounter tlc (some env.japanese)
    else
      match sortB countDescLe wlc with
      | p1 :: p2 :: _ =>
        if p2.2 < p1.2 ∧ p1.1 ∈ d.languages then incrementCounter tlc (some p1.1)
        else incrementCounter tlc none
      | _ => tlc

/-- `LanguageDetector::detect_language_with_rules`. -/
def detectLanguageWithRules {Lang : Type} [DecidableEq Lang]
    (env : LinguaEnv Lang) (d : LanguageDetector Lang)
    (words : List (List Char)) : Option Lang :=
  let tlc := words.foldl (creditWord env d) []
  let unknownCount := (alookup tlc none).getD 0
  -- `(unknown as f64) < (len as f64) * 0.5` is exact for word counts below
  -- 2^52 and therefore equivalent to `2 * unknown < len` on naturals.
  let tlc :=
    if 2 * unknownCount < words.length then
      tlc.filter (fun p => decide (p.1 ≠ none))
    else tlc
  match tlc with
  | [] => none
  | [p] => p.1
  | _ =>
    match sortB countDescLe tlc with
    | p1 :: p2 :: _ => if p1.2 = p2.2 then none else p1.1
    | _ => none

/-- The alphabet counter of `LanguageDetector::filter_languages_by_rules`:
each word increments the first alphabet (in declaration order) whose set
contains all its characters. -/
def detectedAlphabets {Lang : Type} (env : LinguaEnv Lang)
    (words : List (List Char)) : List (Alphabet × Nat) :=
  words.foldl (fun da w =>
    match alphabetList.find? (fun a => alphabetMatches env a w) with
    | some a => incrementCounter da a
    | none => da) []

/-- The entries of an association list in the iteration order `ord` of
the underlying hash map. -/
def iterEntries {κ : Type} [DecidableEq κ] (ord : List κ)
    (counts : List (κ × Nat)) : List (κ × Nat) :=
  ord.filterMap (fun k => (alookup counts k).map (fun n => (k, n)))

/-- The `most_frequent_alphabet` selection of
`LanguageDetector::filter_languages_by_rules`: stable sort of the hash
map's entries (in its iteration order `ord`) by descending count, then
take the first. -/
def mostFrequentAlphabet (ord : List Alphabet)
    (counts : List (Alphabet × Nat)) : Option Alphabet :=
  ((sortB countDescLe (iterEntries ord counts)).head?).map (fun p => p.1)

/-- The character-hint counter of
`LanguageDetector::filter_languages_by_rules`: each word increments every
language of the first mapping entry sharing a character with it. -/
def hintLanguageCounts {Lang : Type} [DecidableEq Lang] (env : LinguaEnv Lang)
    (words : List (List Char)) : List (Lang × Nat) :=
  words.foldl (fun lc w =>
    match env.charsToLanguages.find? (fun e => e.1.any (fun c => decide (c ∈ w))) with
    | some e => e.2.foldl incrementCounter lc
    | none => lc) []

/-- `LanguageDetector::filter_languages_by_rules`. -/
def filterLanguagesByRules {Lang : Type} [DecidableEq Lang]
    (env : LinguaEnv Lang) (d : LanguageDetector Lang) (ord : List Alphabet)
    (words : List (List Char)) : List Lang :=
  let da := detectedAlphabets env words
  if da.isEmpty then d.languages
  else
    match mostFrequentAlphabet ord da with
    | none => d.languages
    | some aStar =>
      let filteredLanguages :=
        d.languages.filter (fun l => decide (aStar ∈ env.alphabetsOf l))
      let languageCounts := hintLanguageCounts env words
      -- `(count as f64) >= (len as f64) * 0.5` is exact for counts below
      -- 2^52 and therefore equivalent to `len <= 2 * count` on naturals.
      let languagesSubset :=
        (languageCounts.filter (fun p =>
          decide (words.length ≤ 2 * p.2))).map (fun p => p.1)
      if !languagesSubset.isEmpty then
        filteredLanguages.filter (fun l => decide (l ∈ languagesSubset))
      else filteredLanguages

/-- One iteration of the per-order loop in
`LanguageDetector::compute_language_confidence_values`: skip orders
longer than the text, compute and record the per-order probabilities,
narrow the candidates, and count unigram hits at order 1. -/
def statStep {Lang : Type} [DecidableEq Lang] (tc : TextClasses) (ln : ℚ → ℚ)
    (d : LanguageDetector Lang) (cleaned : List Char)
    (st : List Lang × List (List (Lang × ℚ)) × List (Lang × Nat)) (i : Nat) :
    List Lang × List (List (Lang × ℚ)) × List (Lang × Nat) :=
  if cleaned.length < i then st
  else
    let ngrams := testDataNgrams tc cleaned i
    let probabilities := computeLanguageProbabilities ln d ngrams st.1
    let keys := probabilities.map (fun p => p.1)
    let filtered :=
      if probabilities.isEmpty then st.1
      else st.1.filter (fun l => decide (l ∈ keys))
    let ucounts :=
      if i = 1 then countUnigrams d ngrams filtered else st.2.2
    (filtered, st.2.1 ++ [probabilities], ucounts)

/-- The comparator of the final confidence sort: descending by value,
ties broken by ascending language order. -/
def confidenceLe {Lang : Type} (env : LinguaEnv Lang) (p q : Lang × ℚ) : Bool :=
  decide (q.2 < p.2) || (decide (p.2 = q.2) && decide (env.langIdx p.1 ≤ env.langIdx q.1))

/-- The `highest_probability` selection: sort the summed values in
descending order and take the first. -/
def highestProbability {Lang : Type} (summed : List (Lang × ℚ)) : ℚ :=
  (sortB (fun a b => decide (b ≤ a)) (summed.map (fun p => p.2))).headD 0

/-- `LanguageDetector::compute_language_confidence_values`. -/
def computeLanguageConfidenceValues {Lang : Type} [DecidableEq Lang]
    (env : LinguaEnv Lang) (tc : TextClasses) (d : LanguageDetector Lang)
    (ln : ℚ → ℚ) (ord : List Alphabet) (text : String) : List (Lang × ℚ) :=
  let cleaned := cleanUpInputText tc text.data
  if cleaned.isEmpty || noLetterMatch tc cleaned then []
  else
    let words := splitTextIntoWords cleaned
    match detectLanguageWithRules env d words with
    | some language => [(language, 1)]
    | none =>
      let filteredLanguages := filterLanguagesByRules env d ord words
      match filteredLanguages with
      | [l] => [(l, 1)]
      | _ =>
        let st := [1, 2, 3, 4, 5].foldl (statStep tc ln d cleaned)
          (filteredLanguages, [], [])
        let summed := sumUpProbabilities st.2.1 st.2.2 st.1
        if summed.isEmpty then []
        else
          let highest := highestProbability summed
          sortB (confidenceLe env)
            (summed.map (fun p => (p.1, highest / p.2)))

/-- `f64::EPSILON` as an exact rational. -/
def f64Epsilon : ℚ := 1 / 2 ^ 52

/-- `LanguageDetector::detect_language_of`. -/
def detectLanguageOf {Lang : Type} [DecidableEq Lang] (env : LinguaEnv Lang)
    (tc : TextClasses) (d : LanguageDetector Lang) (ln : ℚ → ℚ)
    (ord : List Alphabet) (text : String) : Option Lang :=
  match computeLanguageConfidenceValues env tc d ln ord text with
  | [] => none
  | [p] => some p.1
  | p1 :: p2 :: _ =>
    if |p1.2 - p2.2| < f64Epsilon then none
    else if p1.2 - p2.2 < d.minimumRelativeDistance then none
    else some p1.1

/-- The claim-side reading of `detect_language_of` (refinement target):
`None` on an empty list, the first language of a singleton, otherwise
`None` when the difference of the top two values is below the machine
epsilon or below the configured minimum relative distance, and the first
language otherwise. -/
def detectLanguageOfDescribed {Lang : Type} [DecidableEq Lang]
    (env : LinguaEnv Lang) (tc : TextClasses) (d : LanguageDetector Lang)
    (ln : ℚ → ℚ) (ord : List Alphabet) (text : String) : Option Lang :=
  match computeLanguageConfidenceValues env tc d ln ord text with
  | [] => none
  | [p] => some p.1
  | p1 :: p2 :: _ =>
    if p1.2 - p2.2 < f64Epsilon ∨ p1.2 - p2.2 < d.minimumRelativeDistance
    then none
    else some p1.1

/-- The spec-side contribution of a single n-gram to the summed log
probability: the logarithm of the frequency of its longest prefix with a
strictly positive frequency, and nothing when no prefix order yields a
positive frequency. -/
def specNgramContribution {Lang : Type} (ln : ℚ → ℚ)
    (d : LanguageDetector Lang) (language : Lang) (g : List Char) : ℚ :=
  let k := Nat.findGreatest
    (fun k => 0 < lookUpNgramProbability d language (g.take k)) g.length
  if k = 0 then 0 else ln (lookUpNgramProbability d language (g.take k))

/-- A small closed language catalog used by the concrete witnesses and
counterexamples; its facts (which alphabet belongs to which language)
agree with the real catalog on the languages involved. -/
inductive TLang where
  | english
  | german
  | greekLang
  | russian
  | chinese
  | japanese
  deriving DecidableEq, Repr

/-- Enum discriminant of `TLang` in declaration order. -/
def TLang.idx : TLang → Nat
  | .english => 0
  | .german => 1
  | .greekLang => 2
  | .russian => 3
  | .chinese => 4
  | .japanese => 5

/-- Modelled from the spec: a concrete fragment of the script character
sets, restricted to the characters occurring in the concrete inputs; the
classifications agree with the Unicode script tables on those
characters. -/
def testCharSet : Alphabet → Char → Bool
  | .latin, c => c.isAlpha
  | .greek, c => c = 'α'
  | .cyrillic, c => c = 'б'
  | .han, c => c = '一'
  | .hiragana, c => c = 'あ'
  | _, _ => false

/-- Modelled from the spec: concrete character classes agreeing with the
Unicode categories on the characters of the concrete inputs (none of
which is uppercase, so per-character lowercasing is the identity
there). -/
def concreteTC : TextClasses where
  isPunct c := c ∈ ['.', ',', ';', '!', '?']
  isNum c := c.isDigit
  isWs c := c ∈ [' ', '\t', '\n', '\r']
  isLetter c := c.isAlpha || c ∈ ['α', 'б', '一', 'あ']
  lowerChar c := c

/-- An all-zero model store (no n-gram frequencies known). -/
def zeroModels : Nat → TLang → List Char → ℚ := fun _ _ _ => 0

/-- Concrete environment: English (Latin), Chinese (Han) and Japanese
(Hiragana, Katakana, Han), as in the real catalog. -/
def envCJ : LinguaEnv TLang where
  catalog := [.english, .chinese, .japanese]
  alphabetsOf
    | .english => [.latin]
    | .chinese => [.han]
    | .japanese => [.hiragana, .katakana, .han]
    | _ => []
  uniqueCharacters _ := none
  chinese := .chinese
  japanese := .japanese
  charsToLanguages := []
  charSet := testCharSet
  langIdx := TLang.idx

/-- A detector over `envCJ` configured with the single language
English. -/
def detEnglishOnly : LanguageDetector TLang :=
  LanguageDetector.build envCJ [.english] 0 zeroModels

/-- Concrete environment: English and German, both written in the Latin
alphabet (as in the real catalog, where dozens of languages share
Latin). -/
def envLatin2 : LinguaEnv TLang where
  catalog := [.english, .german]
  alphabetsOf
    | .english => [.latin]
    | .german => [.latin]
    | _ => []
  uniqueCharacters _ := none
  chinese := .chinese
  japanese := .japanese
  charsToLanguages := []
  charSet := testCharSet
  langIdx := TLang.idx

/-- Concrete environment: a Greek-alphabet language and a
Cyrillic-alphabet language. -/
def envGC : LinguaEnv TLang where
  catalog := [.greekLang, .russian]
  alphabetsOf
    | .greekLang => [.greek]
    | .russian => [.cyrillic]
    | _ => []
  uniqueCharacters _ := none
  chinese := .chinese
  japanese := .japanese
  charsToLanguages := []
  charSet := testCharSet
  langIdx := TLang.idx

/-- A detector over `envGC` configured with both languages. -/
def detGC : LanguageDetector TLang :=
  LanguageDetector.build envGC [.greekLang, .russian] 0 zeroModels

/-! ### General helper lemmas -/

theorem insertB_mem {α : Type} {le : α → α → Bool} {x a : α} {l : List α} :
    x ∈ insertB le a l ↔ x = a ∨ x ∈ l := by
  induction l with
  | nil => simp [insertB]
  | cons b t ih =>
    simp only [insertB]
    by_cases h : le a b = true
    · simp [h]
    · simp only [Bool.not_eq_true] at h
      simp [h, ih, List.mem_cons]
      tauto

theorem insertB_perm {α : Type} (le : α → α → Bool) (a : α) :
    ∀ l : List α, (insertB le a l).Perm (a :: l)
  | [] => List.Perm.refl _
  | b :: t => by
    simp only [insertB]
    by_cases h : le a b = true
    · simp [h]
    · simp only [Bool.not_eq_true] at h
      simp only [h]
      exact ((insertB_perm le a t).cons b).trans (List.Perm.swap a b t)

theorem sortB_perm {α : Type} (le : α → α → Bool) :
    ∀ l : List α, (sortB le l).Perm l
  | [] => List.Perm.refl _
  | a :: l => (insertB_perm le a (sortB le l)).trans ((sortB_perm le l).cons a)

theorem insertB_pairwise {α : Type} {le : α → α → Bool}
    (total : ∀ a b, le a b = true ∨ le b a = true)
    (htr : ∀ a b c, le a b = true → le b c = true → le a c = true)
    (a : α) : ∀ l : List α, l.Pairwise (fun x y => le x y = true) →
    (insertB le a l).Pairwise (fun x y => le x y = true)
  | [], _ => by simp [insertB]
  | b :: t, hl => by
    simp only [insertB]
    rcases List.pairwise_cons.mp hl with ⟨hb, ht⟩
    by_cases h : le a b = true
    · rw [if_pos h]
      refine List.pairwise_cons.mpr ⟨?_, hl⟩
      intro x hx
      rcases List.mem_cons.mp hx with rfl | hx
      · exact h
      · exact htr a b x h (hb x hx)
    · rw [if_neg h]
      have hba : le b a = true := (total a b).resolve_left h
      refine List.pairwise_cons.mpr ⟨?_, insertB_pairwise total htr a t ht⟩
      intro x hx
      rcases insertB_mem.mp hx with rfl | hx
      · exact hba
      · exact hb x hx

theorem sortB_pairwise {α : Type} {le : α → α → Bool}
    (total : ∀ a b, le a b = true ∨ le b a = true)
    (htr : ∀ a b c, le a b = true → le b c = true → le a c = true) :
    ∀ l : List α, (sortB le l).Pairwise (fun x y => le x y = true)
  | [] => List.Pairwise.nil
  | a :: l => insertB_pairwise total htr a _ (sortB_pairwise total htr l)

theorem sortB_head_le {α : Type} {le : α → α → Bool}
    (total : ∀ a b, le a b = true ∨ le b a = true)
    (htr : ∀ a b c, le a b = true → le b c = true → le a c = true)
    {l : List α} {p : α} {t : List α} (h : sortB le l = p :: t) :
    ∀ q ∈ l, le p q = true := by
  intro q hq
  have hperm := sortB_perm le l
  rw [h] at hperm
  have hq2 : q ∈ p :: t := hperm.symm.subset hq
  rcases List.mem_cons.mp hq2 with rfl | hq2
  · exact (total q q).elim id id
  · have hpw := sortB_pairwise total htr l
    rw [h] at hpw
    exact (List.pairwise_cons.mp hpw).1 q hq2

theorem sortB_head_mem {α : Type} {le : α → α → Bool}
    {l : List α} {p : α} {t : List α} (h : sortB le l = p :: t) : p ∈ l := by
  have hperm := sortB_perm le l
  rw [h] at hperm
  exact hperm.subset (List.mem_cons_self p t)

theorem sortB_eq_nil {α : Type} {le : α → α → Bool} {l : List α}
    (h : sortB le l = []) : l = [] := by
  have hperm := sortB_perm le l
  rw [h] at hperm
  exact (List.Perm.nil_eq hperm).symm

theorem find?_congr_mem {α : Type} {p q : α → Bool} :
    ∀ {l : List α}, (∀ x ∈ l, p x = q x) → l.find? p = l.find? q
  | [], _ => rfl
  | a :: l, h => by
    have ha : p a = q a := h a (List.mem_cons_self a l)
    simp only [List.find?]
    rw [← ha]
    cases hpa : p a with
    | true => rfl
    | false => exact find?_congr_mem (fun x hx => h x (List.mem_cons_of_mem a hx))

theorem countDescLe_total {κ : Type} :
    ∀ p q : κ × Nat, countDescLe p q = true ∨ countDescLe q p = true := by
  intro p q
  simp only [countDescLe, decide_eq_true_eq]
  omega

theorem countDescLe_trans {κ : Type} :
    ∀ p q r : κ × Nat, countDescLe p q = true → countDescLe q r = true →
      countDescLe p r = true := by
  intro p q r
  simp only [countDescLe, decide_eq_true_eq]
  omega

/-- The head of the stable descending-count sort is the first entry of
the input achieving the maximal count. -/
theorem sortB_head_first_max {κ : Type} :
    ∀ l : List (κ × Nat),
      (sortB countDescLe l).head? =
        l.find? (fun p => l.all (fun q => decide (q.2 ≤ p.2)))
  | [] => rfl
  | a :: l => by
    cases hs : sortB countDescLe l with
    | nil =>
      have hl : l = [] := sortB_eq_nil hs
      subst hl
      simp [sortB, insertB, List.find?]
    | cons b t =>
      have hbmem : b ∈ l := sortB_head_mem hs
      have hbmax : ∀ q ∈ l, q.2 ≤ b.2 := by
        intro q hq
        have h := sortB_head_le countDescLe_total countDescLe_trans hs q hq
        simpa [countDescLe, decide_eq_true_eq] using h
      show (insertB countDescLe a (sortB countDescLe l)).head? = _
      rw [hs]
      by_cases hab : countDescLe a b = true
      · have hba : b.2 ≤ a.2 := by
          simpa [countDescLe, decide_eq_true_eq] using hab
        have hpred : ((a :: l).all (fun q => decide (q.2 ≤ a.2))) = true := by
          rw [List.all_eq_true]
          intro q hq
          rcases List.mem_cons.mp hq with rfl | hq
          · simp
          · exact decide_eq_true (le_trans (hbmax q hq) hba)
        have h2 : List.find? (fun p => (a :: l).all (fun q => decide (q.2 ≤ p.2)))
            (a :: l) = some a := List.find?_cons_of_pos _ hpred
        rw [h2]
        simp [insertB, hab]
      · have hba : a.2 < b.2 := by
          simp only [countDescLe, decide_eq_true_eq] at hab
          omega
        have hpred : ¬ ((a :: l).all (fun q => decide (q.2 ≤ a.2))) = true := by
          rw [List.all_eq_true]
          intro hall
          have := hall b (List.mem_cons_of_mem a hbmem)
          simp only [decide_eq_true_eq] at this
          omega
        have h2 : List.find? (fun p => (a :: l).all (fun q => decide (q.2 ≤ p.2)))
            (a :: l) =
            List.find? (fun p => (a :: l).all (fun q => decide (q.2 ≤ p.2))) l :=
          List.find?_cons_of_neg _ hpred
        rw [h2]
        have hcongr : l.find? (fun p => (a :: l).all (fun q => decide (q.2 ≤ p.2))) =
            l.find? (fun p => l.all (fun q => decide (q.2 ≤ p.2))) := by
          apply find?_congr_mem
          intro x hx
          cases hx2 : l.all (fun q => decide (q.2 ≤ x.2)) with
          | true =>
            have hbx : b.2 ≤ x.2 := by
              have := List.all_eq_true.mp hx2 b hbmem
              simpa using this
            have hax : a.2 ≤ x.2 := le_trans (le_of_lt hba) hbx
            simp [List.all_cons, hx2, hax]
          | false => simp [List.all_cons, hx2]
        rw [hcongr, ← sortB_head_first_max l, hs]
        simp [insertB, hab]

theorem alookup_mem {κ ν : Type} [DecidableEq κ] :
    ∀ {m : List (κ × ν)} {k : κ} {v : ν}, alookup m k = some v → (k, v) ∈ m := by
  intro m
  induction m with
  | nil => intro k v h; simp [alookup] at h
  | cons p rest ih =>
    intro k v h
    simp only [alookup] at h
    by_cases hk : p.1 = k
    · rw [if_pos hk] at h
      have : p = (k, v) := by
        cases p
        simp at hk h
        simp [hk, h]
      exact this ▸ List.mem_cons_self p rest
    · rw [if_neg hk] at h
      exact List.mem_cons_of_mem p (ih h)

theorem incrementCounter_pos {κ : Type} [DecidableEq κ] {m : List (κ × Nat)}
    (hm : ∀ p ∈ m, 1 ≤ p.2) (k : κ) :
    ∀ p ∈ incrementCounter m k, 1 ≤ p.2 := by
  intro p hp
  unfold incrementCounter at hp
  cases halt : alookup m k with
  | some v =>
    rw [halt] at hp
    simp only at hp
    rcases List.mem_map.mp hp with ⟨q, hq, hg⟩
    subst hg
    by_cases hqk : q.1 = k
    · simp [hqk]
    · simp only [if_neg hqk]
      exact hm q hq
  | none =>
    rw [halt] at hp
    simp only at hp
    rcases List.mem_append.mp hp with hp1 | hp1
    · exact hm p hp1
    · have hpe : p = (k, 1) := List.mem_singleton.mp hp1
      simp [hpe]

theorem incrementCounter_keys {κ : Type} [DecidableEq κ] (P : κ → Prop)
    {m : List (κ × Nat)} (hm : ∀ p ∈ m, P p.1) {k : κ} (hk : P k) :
    ∀ p ∈ incrementCounter m k, P p.1 := by
  intro p hp
  unfold incrementCounter at hp
  cases halt : alookup m k with
  | some v =>
    rw [halt] at hp
    rcases List.mem_map.mp hp with ⟨q, hq, hg⟩
    by_cases hqk : q.1 = k
    · rw [if_pos hqk] at hg
      rw [← hg]
      exact hm q hq
    · rw [if_neg hqk] at hg
      exact hg ▸ hm q hq
  | none =>
    rw [halt] at hp
    rcases List.mem_append.mp hp with hp1 | hp1
    · exact hm p hp1
    · have : p = (k, 1) := List.mem_singleton.mp hp1
      rw [this]
      exact hk

theorem mem_alphabetList (a : Alphabet) : a ∈ alphabetList := by
  cases a <;> decide

/-! ### Claim C10 -/

/-- C10: for every alphabet, `matches` on the empty string returns `true`
(the all-characters membership test is vacuously satisfied), so an empty
word counts toward the first alphabet tried in the script filter, which
is Arabic, the first constructor in declaration order. -/
theorem c10_empty_word_matches_first_alphabet {Lang : Type}
    (env : LinguaEnv Lang) :
    (∀ a : Alphabet, alphabetMatches env a [] = true) ∧
    alphabetList.find? (fun a => alphabetMatches env a []) = some Alphabet.arabic :=
  ⟨fun _ => rfl, rfl⟩

/-! ### Claim C2 -/

/-- C2 (amended): an entry `(alphabet, L)` is in `one_language_alphabets`
exactly when `L` is the sole language of the whole catalog that uses the
alphabet and `L` is in the configured set — catalog-wide uniqueness, not
uniqueness within the configured set. -/
theorem c2_one_language_alphabets_characterization {Lang : Type}
    [DecidableEq Lang] (env : LinguaEnv Lang) (languages : List Lang)
    (mrd : ℚ) (models : Nat → Lang → List Char → ℚ) (a : Alphabet) (l : Lang) :
    (a, l) ∈ (LanguageDetector.build env languages mrd models).oneLanguageAlphabets ↔
      supportedLanguages env a = [l] ∧ l ∈ languages := by
  unfold LanguageDetector.build
  simp only [List.mem_filter, decide_eq_true_eq]
  constructor
  · rintro ⟨hmem, hl⟩
    refine ⟨?_, hl⟩
    rcases List.mem_filterMap.mp hmem with ⟨x, _, hmatch⟩
    cases hsup : supportedLanguages env x with
    | nil => rw [hsup] at hmatch; simp at hmatch
    | cons y ys =>
      cases ys with
      | nil =>
        rw [hsup] at hmatch
        simp only [Option.some.injEq, Prod.mk.injEq] at hmatch
        rcases hmatch with ⟨rfl, rfl⟩
        exact hsup
      | cons z zs => rw [hsup] at hmatch; simp at hmatch
  · rintro ⟨hsup, hl⟩
    refine ⟨?_, hl⟩
    apply List.mem_filterMap.mpr
    exact ⟨a, mem_alphabetList a, by rw [hsup]⟩

/-- C2 counterexample: in a catalog where English and German both use the
Latin alphabet and only English is configured, English is the sole
configured language using Latin, yet the claim's promised entry
`(Latin, English)` is absent from `one_language_alphabets`, because
`all_supporting_single_language` tests uniqueness against the whole
catalog before the configured filter is applied. -/
theorem c2_counterexample :
    (envLatin2.catalog.filter (fun l =>
      decide (l ∈ [TLang.english]) &&
        decide (Alphabet.latin ∈ envLatin2.alphabetsOf l))) = [TLang.english] ∧
    (Alphabet.latin, TLang.english) ∉
      (LanguageDetector.build envLatin2 [TLang.english] 0 zeroModels).oneLanguageAlphabets :=
  ⟨by decide, by decide⟩

/-! ### Claim C8 -/

/-- C8: when every character of the cleaned text is a non-letter (in
particular when the cleaned text is empty),
`compute_language_confidence_values` returns the empty list and
`detect_language_of` returns `None`; no error is raised. -/
theorem c8_no_letters_empty_result {Lang : Type} [DecidableEq Lang]
    (env : LinguaEnv Lang) (tc : TextClasses) (d : LanguageDetector Lang)
    (ln : ℚ → ℚ) (ord : List Alphabet) (text : String)
    (h : (cleanUpInputText tc text.data).all (fun c => !tc.isLetter c) = true) :
    computeLanguageConfidenceValues env tc d ln ord text = [] ∧
      detectLanguageOf env tc d ln ord text = none := by
  have hcond : ((cleanUpInputText tc text.data).isEmpty ||
      noLetterMatch tc (cleanUpInputText tc text.data)) = true := by
    cases he : (cleanUpInputText tc text.data).isEmpty with
    | true => simp
    | false => simp [noLetterMatch, he, h]
  have hcv : computeLanguageConfidenceValues env tc d ln ord text = [] := by
    unfold computeLanguageConfidenceValues
    simp only [hcond, if_true]
  refine ⟨hcv, ?_⟩
  unfold detectLanguageOf
  rw [hcv]

/-- C8 witness: the digit-only text `123` cleans to the empty string, the
confidence list is empty and detection returns `None`. -/
theorem c8_witness :
    computeLanguageConfidenceValues envGC concreteTC detGC id alphabetList "123" = [] ∧
      detectLanguageOf envGC concreteTC detGC id alphabetList "123" = none :=
  c8_no_letters_empty_result envGC concreteTC detGC id alphabetList "123" (by decide)

/-! ### Claim C3 -/

/-- C3 counterexample: cleaning is not idempotent.  On `"a. ."` the first
pass removes the dots after trimming, leaving the trailing space `"a "`;
the second pass trims it away, giving `"a"`. -/
theorem c3_counterexample :
    cleanUpInputText concreteTC (cleanUpInputText concreteTC "a. .".data) ≠
      cleanUpInputText concreteTC "a. .".data := by decide

/-! ### Claim C6 -/

theorem descList_find_eq_findGreatest (F : Nat → ℚ) :
    ∀ n : Nat,
      (((List.range n).map (fun j => F (n - j))).find? (fun p => decide (0 < p))) =
        (if Nat.findGreatest (fun k => 0 < F k) n = 0 then none
         else some (F (Nat.findGreatest (fun k => 0 < F k) n)))
  | 0 => rfl
  | n + 1 => by
    rw [List.range_succ_eq_map]
    simp only [List.map_cons, Nat.sub_zero, List.map_map]
    have hmap : ((List.range n).map (fun j => F (n + 1 - Nat.succ j))) =
        (List.range n).map (fun j => F (n - j)) := by
      apply List.map_congr_left
      intro j _
      congr 1
      omega
    have hcomp : ((fun j => F (n + 1 - j)) ∘ Nat.succ) =
        (fun j => F (n + 1 - Nat.succ j)) := rfl
    rw [hcomp, hmap]
    cases hp : decide (0 < F (n + 1)) with
    | true =>
      have hps : 0 < F (n + 1) := of_decide_eq_true hp
      have hfind : List.find? (fun p => decide (0 < p))
          (F (n + 1) :: (List.range n).map (fun j => F (n - j))) =
            some (F (n + 1)) := List.find?_cons_of_pos _ hp
      rw [hfind, Nat.findGreatest_succ, if_pos hps]
      simp
    | false =>
      have hps : ¬ 0 < F (n + 1) := of_decide_eq_false hp
      have hfind : List.find? (fun p => decide (0 < p))
          (F (n + 1) :: (List.range n).map (fun j => F (n - j))) =
            List.find? (fun p => decide (0 < p))
              ((List.range n).map (fun j => F (n - j))) :=
        List.find?_cons_of_neg _ (by simp [hp])
      rw [hfind, Nat.findGreatest_succ, if_neg hps]
      exact descList_find_eq_findGreatest F n

theorem filterMap_map_sum {α : Type} (f : α → Option ℚ) (g : ℚ → ℚ) :
    ∀ l : List α, ((l.filterMap f).map g).sum =
      (l.map (fun a => match f a with | some p => g p | none => 0)).sum
  | [] => rfl
  | a :: l => by
    rw [List.filterMap_cons]
    cases hf : f a with
    | none =>
      simp only [List.map_cons, List.sum_cons, hf]
      rw [filterMap_map_sum f g l]
      simp
    | some b =>
      simp only [List.map_cons, List.sum_cons, hf]
      rw [filterMap_map_sum f g l]

theorem ngram_pick_eq_spec {Lang : Type} (ln : ℚ → ℚ)
    (d : LanguageDetector Lang) (language : Lang) (g : List Char) :
    (match ((rangeOfLowerOrderNgrams g).map (lookUpNgramProbability d language)).find?
        (fun p => decide (0 < p)) with
     | some p => ln p
     | none => 0) = specNgramContribution ln d language g := by
  unfold specNgramContribution rangeOfLowerOrderNgrams
  rw [List.map_map]
  have hcomp : (lookUpNgramProbability d language ∘ fun j => g.take (g.length - j)) =
      (fun j => lookUpNgramProbability d language (g.take (g.length - j))) := rfl
  rw [hcomp]
  rw [descList_find_eq_findGreatest (fun k => lookUpNgramProbability d language (g.take k)) g.length]
  by_cases h0 : Nat.findGreatest
      (fun k => 0 < lookUpNgramProbability d language (g.take k)) g.length = 0
  · rw [if_pos h0]
    simp [h0]
  · rw [if_neg h0]
    simp [h0]

/-- C6: the summed log probability walks each n-gram's prefixes from its
own length down to 1, takes `ln` of the first strictly positive
frequency found (equivalently, of its longest prefix with a positive
frequency) and stops there, contributes nothing for an n-gram with no
positive frequency at any order, and returns the sum over all
n-grams. -/
theorem c6_sum_of_ngram_probabilities_backoff {Lang : Type} (ln : ℚ → ℚ)
    (d : LanguageDetector Lang) (language : Lang) (ngrams : List (List Char)) :
    computeSumOfNgramProbabilities ln d language ngrams =
      (ngrams.map (specNgramContribution ln d language)).sum := by
  unfold computeSumOfNgramProbabilities
  rw [filterMap_map_sum]
  congr 1
  apply List.map_congr_left
  intro g _
  exact ngram_pick_eq_spec ln d language g

/-! ### Claim C4 -/

/-- C4 (amended): the alphabet chosen as the most frequent one is the
first entry achieving the maximal count in the iteration order of the
accumulating hash map — an order that is arbitrary per map instance —
not necessarily the first in the fixed alphabet declaration order. -/
theorem c4_most_frequent_first_max_in_map_order (ord : List Alphabet)
    (counts : List (Alphabet × Nat)) :
    mostFrequentAlphabet ord counts =
      ((iterEntries ord counts).find? (fun p =>
        (iterEntries ord counts).all (fun q => decide (q.2 ≤ p.2)))).map
        (fun p => p.1) := by
  unfold mostFrequentAlphabet
  rw [sortB_head_first_max]

/-- C4 counterexample: on the two words `α` and `б`, Greek and Cyrillic
tie for the highest count (1 each); Cyrillic comes first in the fixed
declaration order, yet under the reversed map iteration order — a
legitimate order for a randomized hash map — the filter chooses
Greek. -/
theorem c4_counterexample :
    (alookup (detectedAlphabets envGC [['α'], ['б']]) Alphabet.greek = some 1 ∧
     alookup (detectedAlphabets envGC [['α'], ['б']]) Alphabet.cyrillic = some 1 ∧
     ∀ p ∈ detectedAlphabets envGC [['α'], ['б']], p.2 ≤ 1) ∧
    alphabetList.find?
      (fun a => (alookup (detectedAlphabets envGC [['α'], ['б']]) a).isSome) =
      some Alphabet.cyrillic ∧
    mostFrequentAlphabet alphabetList.reverse
      (detectedAlphabets envGC [['α'], ['б']]) = some Alphabet.greek ∧
    Alphabet.greek ≠ Alphabet.cyrillic := by decide

/-! ### Claim C9 -/

/-- C9 counterexample: the same detector and the same text `α б` yield
different confidence lists under two legitimate iteration orders of the
freshly created alphabet-count hash map, because Greek and Cyrillic tie
and the tie-break follows that arbitrary order. -/
theorem c9_counterexample :
    computeLanguageConfidenceValues envGC concreteTC detGC id alphabetList "α б" ≠
      computeLanguageConfidenceValues envGC concreteTC detGC id
        alphabetList.reverse "α б" := by decide

theorem mostFrequent_unique_max {k : Alphabet} {v : Nat} (o : List Alphabet)
    (da : List (Alphabet × Nat)) (hk : alookup da k = some v) (hko : k ∈ o)
    (hmax : ∀ p ∈ iterEntries o da, p.2 ≤ v ∧ (p.2 = v → p.1 = k)) :
    mostFrequentAlphabet o da = some k := by
  unfold mostFrequentAlphabet
  rw [sortB_head_first_max]
  have hkv : (k, v) ∈ iterEntries o da := by
    unfold iterEntries
    exact List.mem_filterMap.mpr ⟨k, hko, by rw [hk]; rfl⟩
  cases hfind : (iterEntries o da).find? (fun p =>
      (iterEntries o da).all (fun q => decide (q.2 ≤ p.2))) with
  | none =>
    have hnone := List.find?_eq_none.mp hfind (k, v) hkv
    have hpred : ((iterEntries o da).all (fun q => decide (q.2 ≤ (k, v).2))) = true := by
      rw [List.all_eq_true]
      intro q hq
      exact decide_eq_true (hmax q hq).1
    exact absurd hpred (by simpa using hnone)
  | some q =>
    have hqmem : q ∈ iterEntries o da := List.mem_of_find?_eq_some hfind
    have hqpred := List.find?_some hfind
    have hv : v ≤ q.2 := by
      have := List.all_eq_true.mp hqpred (k, v) hkv
      simpa using this
    have hq2 := hmax q hqmem
    have hveq : q.2 = v := le_antisymm hq2.1 hv
    have hk1 : q.1 = k := hq2.2 hveq
    simp [hk1]

theorem filterLanguagesByRules_ord_eq {Lang : Type} [DecidableEq Lang]
    (env : LinguaEnv Lang) (d : LanguageDetector Lang)
    (o1 o2 : List Alphabet) (words : List (List Char))
    (hda : (detectedAlphabets env words).isEmpty = true ∨
      ∃ k v, alookup (detectedAlphabets env words) k = some v ∧
        k ∈ o1 ∧ k ∈ o2 ∧
        (∀ p ∈ iterEntries o1 (detectedAlphabets env words),
          p.2 ≤ v ∧ (p.2 = v → p.1 = k)) ∧
        (∀ p ∈ iterEntries o2 (detectedAlphabets env words),
          p.2 ≤ v ∧ (p.2 = v → p.1 = k))) :
    filterLanguagesByRules env d o1 words = filterLanguagesByRules env d o2 words := by
  rcases hda with hempty | ⟨k, v, hk, hko1, hko2, hmax1, hmax2⟩
  · simp only [filterLanguagesByRules, hempty, if_true]
  · have hmf1 : mostFrequentAlphabet o1 (detectedAlphabets env words) = some k :=
      mostFrequent_unique_max o1 _ hk hko1 hmax1
    have hmf2 : mostFrequentAlphabet o2 (detectedAlphabets env words) = some k :=
      mostFrequent_unique_max o2 _ hk hko2 hmax2
    simp only [filterLanguagesByRules, hmf1, hmf2]

/-- C9 (amended): detection is a pure function of the detector, the text
and the iteration order of the freshly created alphabet-count hash map;
whenever the counted alphabets have a unique entry of maximal count (in
particular whenever there is no tie), the confidence list is the same
under any two iteration orders covering the counted alphabets.  Two
invocations can differ only through that arbitrary per-map order, and
only when the alphabet counts tie. -/
theorem c9_confidence_values_deterministic_without_tie {Lang : Type}
    [DecidableEq Lang] (env : LinguaEnv Lang) (tc : TextClasses)
    (d : LanguageDetector Lang) (ln : ℚ → ℚ) (o1 o2 : List Alphabet)
    (text : String)
    (hda : (detectedAlphabets env
        (splitTextIntoWords (cleanUpInputText tc text.data))).isEmpty = true ∨
      ∃ k v, alookup (detectedAlphabets env
          (splitTextIntoWords (cleanUpInputText tc text.data))) k = some v ∧
        k ∈ o1 ∧ k ∈ o2 ∧
        (∀ p ∈ iterEntries o1 (detectedAlphabets env
            (splitTextIntoWords (cleanUpInputText tc text.data))),
          p.2 ≤ v ∧ (p.2 = v → p.1 = k)) ∧
        (∀ p ∈ iterEntries o2 (detectedAlphabets env
            (splitTextIntoWords (cleanUpInputText tc text.data))),
          p.2 ≤ v ∧ (p.2 = v → p.1 = k))) :
    computeLanguageConfidenceValues env tc d ln o1 text =
      computeLanguageConfidenceValues env tc d ln o2 text := by
  have hfilter := filterLanguagesByRules_ord_eq env d o1 o2
    (splitTextIntoWords (cleanUpInputText tc text.data)) hda
  simp only [computeLanguageConfidenceValues]
  rw [hfilter]

/-- C9 witness: on the single-alphabet text `α α` the alphabet counts
have a unique maximum, and the confidence lists under the declaration
order and its reverse coincide. -/
theorem c9_witness :
    computeLanguageConfidenceValues envGC concreteTC detGC id alphabetList "α α" =
      computeLanguageConfidenceValues envGC concreteTC detGC id
        alphabetList.reverse "α α" :=
  c9_confidence_values_deterministic_without_tie envGC concreteTC detGC id
    alphabetList alphabetList.reverse "α α"
    (Or.inr ⟨Alphabet.greek, 2, by decide, by decide, by decide, by decide,
      by decide⟩)

/-! ### Claim C1 -/

theorem creditWord_keys {Lang : Type} [DecidableEq Lang] (env : LinguaEnv Lang)
    (d : LanguageDetector Lang) (acc : List (Option Lang × Nat))
    (word : List Char)
    (hacc : ∀ p ∈ acc, ∀ x, p.1 = some x → x ∈ d.languages ∨ x = env.japanese) :
    ∀ p ∈ creditWord env d acc word, ∀ x, p.1 = some x →
      x ∈ d.languages ∨ x = env.japanese := by
  have hnone : ∀ x : Lang, (none : Option Lang) = some x →
      x ∈ d.languages ∨ x = env.japanese := by
    intro x hx
    exact absurd hx (by simp)
  simp only [creditWord]
  split
  · exact incrementCounter_keys
      (fun k => ∀ x, k = some x → x ∈ d.languages ∨ x = env.japanese) hacc hnone
  · next q =>
    split
    · next hq =>
      refine incrementCounter_keys
        (fun k => ∀ x, k = some x → x ∈ d.languages ∨ x = env.japanese) hacc ?_
      intro x hx
      injection hx with hx
      exact Or.inl (hx ▸ hq)
    · exact incrementCounter_keys
        (fun k => ∀ x, k = some x → x ∈ d.languages ∨ x = env.japanese) hacc hnone
  · split
    · refine incrementCounter_keys
        (fun k => ∀ x, k = some x → x ∈ d.languages ∨ x = env.japanese) hacc ?_
      intro x hx
      injection hx with hx
      exact Or.inr hx.symm
    · split
      · next p1 p2 rest hsort =>
        split
        · next hcond =>
          refine incrementCounter_keys
            (fun k => ∀ x, k = some x → x ∈ d.languages ∨ x = env.japanese) hacc ?_
          intro x hx
          injection hx with hx
          exact Or.inl (hx ▸ hcond.2)
        · exact incrementCounter_keys
            (fun k => ∀ x, k = some x → x ∈ d.languages ∨ x = env.japanese) hacc hnone
      · exact hacc

theorem detectLanguageWithRules_mem {Lang : Type} [DecidableEq Lang]
    (env : LinguaEnv Lang) (d : LanguageDetector Lang)
    (words : List (List Char)) (l : Lang)
    (h : detectLanguageWithRules env d words = some l) :
    l ∈ d.languages ∨ l = env.japanese := by
  have hinv0 : ∀ p ∈ words.foldl (creditWord env d) ([] : List (Option Lang × Nat)),
      ∀ x, p.1 = some x → x ∈ d.languages ∨ x = env.japanese := by
    suffices hgen : ∀ (ws : List (List Char)) (acc : List (Option Lang × Nat)),
        (∀ p ∈ acc, ∀ x, p.1 = some x → x ∈ d.languages ∨ x = env.japanese) →
        ∀ p ∈ ws.foldl (creditWord env d) acc, ∀ x, p.1 = some x →
          x ∈ d.languages ∨ x = env.japanese by
      exact hgen words [] (by simp)
    intro ws
    induction ws with
    | nil =>
      intro acc hacc
      simpa using hacc
    | cons w ws ih =>
      intro acc hacc
      exact ih _ (creditWord_keys env d acc w hacc)
  simp only [detectLanguageWithRules] at h
  have hinv2 : ∀ p ∈ (if 2 * ((alookup (words.foldl (creditWord env d) []) none).getD 0) <
        words.length then
        (words.foldl (creditWord env d) []).filter (fun p => decide (p.1 ≠ none))
      else words.foldl (creditWord env d) ([] : List (Option Lang × Nat))),
      ∀ x, p.1 = some x → x ∈ d.languages ∨ x = env.japanese := by
    split
    · intro p hp
      exact hinv0 p (List.mem_of_mem_filter hp)
    · exact hinv0
  revert h hinv2
  generalize (if 2 * ((alookup (words.foldl (creditWord env d) []) none).getD 0) <
        words.length then
        (words.foldl (creditWord env d) []).filter (fun p => decide (p.1 ≠ none))
      else words.foldl (creditWord env d) ([] : List (Option Lang × Nat))) = tlc
  intro h hinv2
  revert h
  split
  · intro h
    exact absurd h (by simp)
  · next p =>
    intro h
    exact hinv2 p (by simp) l h
  · intro h
    revert h
    split
    · next p1 p2 rest hsort =>
      intro h
      split at h
      · exact absurd h (by simp)
      · have hp1 : p1 ∈ tlc := sortB_head_mem hsort
        exact hinv2 p1 hp1 l h
    · intro h
      exact absurd h (by simp)

theorem filterLanguagesByRules_subset {Lang : Type} [DecidableEq Lang]
    (env : LinguaEnv Lang) (d : LanguageDetector Lang) (ord : List Alphabet)
    (words : List (List Char)) :
    ∀ l ∈ filterLanguagesByRules env d ord words, l ∈ d.languages := by
  intro l hl
  simp only [filterLanguagesByRules] at hl
  split at hl
  · exact hl
  · split at hl
    · exact hl
    · split at hl
      · exact List.mem_of_mem_filter (List.mem_of_mem_filter hl)
      · exact List.mem_of_mem_filter hl

theorem statStep_subset {Lang : Type} [DecidableEq Lang] (tc : TextClasses)
    (ln : ℚ → ℚ) (d : LanguageDetector Lang) (cleaned : List Char)
    (st : List Lang × List (List (Lang × ℚ)) × List (Lang × Nat)) (i : Nat) :
    ∀ l ∈ (statStep tc ln d cleaned st i).1, l ∈ st.1 := by
  intro l hl
  simp only [statStep] at hl
  split at hl
  · exact hl
  · split at hl
    · exact hl
    · exact List.mem_of_mem_filter hl

theorem statLoop_subset {Lang : Type} [DecidableEq Lang] (tc : TextClasses)
    (ln : ℚ → ℚ) (d : LanguageDetector Lang) (cleaned : List Char) :
    ∀ (is : List Nat) (st : List Lang × List (List (Lang × ℚ)) × List (Lang × Nat)),
      ∀ l ∈ (is.foldl (statStep tc ln d cleaned) st).1, l ∈ st.1
  | [], _ => by intro l hl; exact hl
  | i :: is, st => by
    intro l hl
    exact statStep_subset tc ln d cleaned st i l
      (statLoop_subset tc ln d cleaned is _ l hl)

theorem sumUpProbabilities_subset {Lang : Type} [DecidableEq Lang]
    (probabilities : List (List (Lang × ℚ))) (unigramCounts : List (Lang × Nat))
    (filteredLanguages : List Lang) :
    ∀ p ∈ sumUpProbabilities probabilities unigramCounts filteredLanguages,
      p.1 ∈ filteredLanguages := by
  intro p hp
  unfold sumUpProbabilities at hp
  rcases List.mem_filterMap.mp hp with ⟨l, hl, heq⟩
  simp only [ne_eq] at heq
  split at heq
  · injection heq with h
    rw [← h]
    exact hl
  · exact absurd heq (by simp)

theorem cv_lang_mem {Lang : Type} [DecidableEq Lang] (env : LinguaEnv Lang)
    (tc : TextClasses) (d : LanguageDetector Lang) (ln : ℚ → ℚ)
    (ord : List Alphabet) (text : String) :
    ∀ p ∈ computeLanguageConfidenceValues env tc d ln ord text,
      p.1 ∈ d.languages ∨ p.1 = env.japanese := by
  intro p hp
  simp only [computeLanguageConfidenceValues] at hp
  split at hp
  · exact absurd hp (by simp)
  · split at hp
    · next l heq =>
      have hl := detectLanguageWithRules_mem env d _ l heq
      have hpl : p = (l, (1 : ℚ)) := List.mem_singleton.mp hp
      rw [hpl]
      exact hl
    · split at hp
      · next l heq =>
        have hpl : p = (l, (1 : ℚ)) := List.mem_singleton.mp hp
        have hl : l ∈ filterLanguagesByRules env d ord
            (splitTextIntoWords (cleanUpInputText tc text.data)) := by
          rw [heq]
          exact List.mem_singleton_self l
        rw [hpl]
        exact Or.inl (filterLanguagesByRules_subset env d ord _ l hl)
      · split at hp
        · exact absurd hp (by simp)
        · have hsorted := (sortB_perm (confidenceLe env) _).subset hp
          rcases List.mem_map.mp hsorted with ⟨q, hq, hpq⟩
          have hq1 : q.1 ∈ ([1, 2, 3, 4, 5].foldl
              (statStep tc ln d (cleanUpInputText tc text.data))
              (filterLanguagesByRules env d ord
                (splitTextIntoWords (cleanUpInputText tc text.data)), [], [])).1 :=
            sumUpProbabilities_subset _ _ _ q hq
          have hq2 : q.1 ∈ filterLanguagesByRules env d ord
              (splitTextIntoWords (cleanUpInputText tc text.data)) :=
            statLoop_subset tc ln d _ [1, 2, 3, 4, 5] _ q.1 hq1
          rw [← hpq]
          exact Or.inl (filterLanguagesByRules_subset env d ord _ q.1 hq2)

/-- C1 (amended): for a detector configured with a single language, every
input yields that language, `None`, or Japanese — the word rule that
credits Japanese when a word mixes Chinese and Japanese characters does
not check the configured set, so Japanese can escape it. -/
theorem c1_single_language_result {Lang : Type} [DecidableEq Lang]
    (env : LinguaEnv Lang) (tc : TextClasses) (d : LanguageDetector Lang)
    (ln : ℚ → ℚ) (ord : List Alphabet) (text : String) (x l : Lang)
    (hconf : d.languages = [x])
    (h : detectLanguageOf env tc d ln ord text = some l) :
    l = x ∨ l = env.japanese := by
  have hmem : l ∈ d.languages ∨ l = env.japanese := by
    unfold detectLanguageOf at h
    revert h
    split
    · intro h
      exact absurd h (by simp)
    · next p heq =>
      intro h
      injection h with h
      have hp : p ∈ computeLanguageConfidenceValues env tc d ln ord text := by
        rw [heq]
        exact List.mem_singleton_self p
      exact h ▸ cv_lang_mem env tc d ln ord text p hp
    · next p1 p2 rest heq =>
      intro h
      split at h
      · exact absurd h (by simp)
      · split at h
        · exact absurd h (by simp)
        · injection h with h
          have hp : p1 ∈ computeLanguageConfidenceValues env tc d ln ord text := by
            rw [heq]
            exact List.mem_cons_self p1 (p2 :: rest)
          exact h ▸ cv_lang_mem env tc d ln ord text p1 hp
  rcases hmem with hmem | hmem
  · rw [hconf] at hmem
    exact Or.inl (List.mem_singleton.mp hmem)
  · exact Or.inr hmem

/-- C1 counterexample: a detector configured with the single language
English, fed a word containing a Han character and a Hiragana character,
returns Japanese — neither the configured language nor `None`. -/
theorem c1_counterexample :
    detEnglishOnly.languages = [TLang.english] ∧
    ¬ (detectLanguageOf envCJ concreteTC detEnglishOnly id alphabetList "一あ" =
        some TLang.english ∨
       detectLanguageOf envCJ concreteTC detEnglishOnly id alphabetList "一あ" =
        none) := by
  exact ⟨by decide, by decide⟩

/-- C1 witness: the amended theorem applied to the concrete
single-language detector on the Han-plus-Hiragana word, where detection
returns Japanese. -/
theorem c1_witness : TLang.japanese = TLang.english ∨
    TLang.japanese = envCJ.japanese :=
  c1_single_language_result envCJ concreteTC detEnglishOnly id alphabetList
    "一あ" TLang.english TLang.japanese (by decide) (by decide)

/-! ### Claim C5 -/

theorem list_sum_nonpos : ∀ {l : List ℚ}, (∀ x ∈ l, x ≤ 0) → l.sum ≤ 0
  | [], _ => le_of_eq rfl
  | x :: l, h => by
    rw [List.sum_cons]
    have hx := h x (List.mem_cons_self x l)
    have hl := list_sum_nonpos (fun y hy => h y (List.mem_cons_of_mem x hy))
    linarith

theorem computeLanguageProbabilities_neg {Lang : Type} [DecidableEq Lang]
    (ln : ℚ → ℚ) (d : LanguageDetector Lang) (ngrams : List (List Char))
    (filteredLanguages : List Lang) :
    ∀ p ∈ computeLanguageProbabilities ln d ngrams filteredLanguages,
      p.2 < 0 := by
  intro p hp
  unfold computeLanguageProbabilities at hp
  rcases List.mem_filterMap.mp hp with ⟨l, _, heq⟩
  simp only [] at heq
  split at heq
  · next hneg =>
    injection heq with h
    rw [← h]
    exact hneg
  · exact absurd heq (by simp)

theorem countUnigrams_inner_pos {Lang : Type} [DecidableEq Lang]
    (d : LanguageDetector Lang) (l : Lang) :
    ∀ (gs : List (List Char)) (acc : List (Lang × Nat)),
      (∀ p ∈ acc, 1 ≤ p.2) →
      ∀ p ∈ gs.foldl (fun uc2 g =>
          if 0 < lookUpNgramProbability d l g then incrementCounter uc2 l
          else uc2) acc, 1 ≤ p.2
  | [], _, hacc => hacc
  | g :: gs, acc, hacc => by
    apply countUnigrams_inner_pos d l gs
    by_cases hg : 0 < lookUpNgramProbability d l g
    · simp only [if_pos hg]
      exact incrementCounter_pos hacc l
    · simp only [if_neg hg]
      exact hacc

theorem countUnigrams_pos {Lang : Type} [DecidableEq Lang]
    (d : LanguageDetector Lang) (unigrams : List (List Char)) :
    ∀ (fl : List Lang) (acc : List (Lang × Nat)), (∀ p ∈ acc, 1 ≤ p.2) →
      ∀ p ∈ fl.foldl (fun uc l =>
          unigrams.foldl (fun uc2 g =>
            if 0 < lookUpNgramProbability d l g then incrementCounter uc2 l
            else uc2) uc) acc, 1 ≤ p.2
  | [], _, hacc => hacc
  | l :: fl, acc, hacc => by
    apply countUnigrams_pos d unigrams fl
    exact countUnigrams_inner_pos d l unigrams acc hacc

theorem statStep_maps_neg {Lang : Type} [DecidableEq Lang] (tc : TextClasses)
    (ln : ℚ → ℚ) (d : LanguageDetector Lang) (cleaned : List Char)
    (st : List Lang × List (List (Lang × ℚ)) × List (Lang × Nat)) (i : Nat)
    (h1 : ∀ m ∈ st.2.1, ∀ p ∈ m, p.2 < 0) :
    ∀ m ∈ (statStep tc ln d cleaned st i).2.1, ∀ p ∈ m, p.2 < 0 := by
  intro m hm
  simp only [statStep] at hm
  split at hm
  · exact h1 m hm
  · simp only [] at hm
    rcases List.mem_append.mp hm with h | h
    · exact h1 m h
    · have hme : m = computeLanguageProbabilities ln d
          (testDataNgrams tc cleaned i) st.1 := List.mem_singleton.mp h
      rw [hme]
      exact computeLanguageProbabilities_neg ln d _ _

theorem statStep_ucounts_pos {Lang : Type} [DecidableEq Lang] (tc : TextClasses)
    (ln : ℚ → ℚ) (d : LanguageDetector Lang) (cleaned : List Char)
    (st : List Lang × List (List (Lang × ℚ)) × List (Lang × Nat)) (i : Nat)
    (h1 : ∀ p ∈ st.2.2, 1 ≤ p.2) :
    ∀ p ∈ (statStep tc ln d cleaned st i).2.2, 1 ≤ p.2 := by
  intro p hp
  simp only [statStep] at hp
  split at hp
  · exact h1 p hp
  · simp only [] at hp
    split at hp
    · exact countUnigrams_pos d _ _ [] (by simp) p hp
    · exact h1 p hp

theorem statLoop_maps_neg {Lang : Type} [DecidableEq Lang] (tc : TextClasses)
    (ln : ℚ → ℚ) (d : LanguageDetector Lang) (cleaned : List Char) :
    ∀ (is : List Nat) (st : List Lang × List (List (Lang × ℚ)) × List (Lang × Nat)),
      (∀ m ∈ st.2.1, ∀ p ∈ m, p.2 < 0) →
      ∀ m ∈ (is.foldl (statStep tc ln d cleaned) st).2.1, ∀ p ∈ m, p.2 < 0
  | [], _, h1 => h1
  | i :: is, st, h1 =>
    statLoop_maps_neg tc ln d cleaned is _
      (statStep_maps_neg tc ln d cleaned st i h1)

theorem statLoop_ucounts_pos {Lang : Type} [DecidableEq Lang] (tc : TextClasses)
    (ln : ℚ → ℚ) (d : LanguageDetector Lang) (cleaned : List Char) :
    ∀ (is : List Nat) (st : List Lang × List (List (Lang × ℚ)) × List (Lang × Nat)),
      (∀ p ∈ st.2.2, 1 ≤ p.2) →
      ∀ p ∈ (is.foldl (statStep tc ln d cleaned) st).2.2, 1 ≤ p.2
  | [], _, h1 => h1
  | i :: is, st, h1 =>
    statLoop_ucounts_pos tc ln d cleaned is _
      (statStep_ucounts_pos tc ln d cleaned st i h1)

theorem sumUpProbabilities_neg {Lang : Type} [DecidableEq Lang]
    {probabilities : List (List (Lang × ℚ))} {unigramCounts : List (Lang × Nat)}
    (filteredLanguages : List Lang)
    (hmaps : ∀ m ∈ probabilities, ∀ p ∈ m, p.2 < 0)
    (hcounts : ∀ p ∈ unigramCounts, 1 ≤ p.2) :
    ∀ p ∈ sumUpProbabilities probabilities unigramCounts filteredLanguages,
      p.2 < 0 := by
  intro p hp
  unfold sumUpProbabilities at hp
  rcases List.mem_filterMap.mp hp with ⟨l, _, heq⟩
  have hsum : (probabilities.map (fun m => (alookup m l).getD 0)).sum ≤ 0 := by
    apply list_sum_nonpos
    intro x hx
    rcases List.mem_map.mp hx with ⟨m, hm, hxm⟩
    rw [← hxm]
    cases ha : alookup m l with
    | none => simp
    | some v =>
      have := hmaps m hm (l, v) (alookup_mem ha)
      simp only [ha, Option.getD_some]
      exact le_of_lt this
  simp only [ne_eq] at heq
  split at heq
  · next hne =>
    injection heq with h
    rw [← h]
    simp only []
    revert hne
    cases ha : alookup unigramCounts l with
    | none =>
      intro hne
      exact lt_of_le_of_ne hsum hne
    | some n =>
      intro hne
      have hn : 1 ≤ n := hcounts (l, n) (alookup_mem ha)
      have hnq : (0 : ℚ) < (n : ℚ) := by
        have : (1 : ℚ) ≤ (n : ℚ) := by exact_mod_cast hn
        linarith
      have hdiv : (probabilities.map (fun m => (alookup m l).getD 0)).sum / (n : ℚ) ≤ 0 :=
        div_nonpos_iff.mpr (Or.inr ⟨hsum, le_of_lt hnq⟩)
      exact lt_of_le_of_ne hdiv hne
  · exact absurd heq (by simp)

theorem highestProbability_spec {Lang : Type} {summed : List (Lang × ℚ)}
    (hne : summed ≠ []) :
    highestProbability summed ∈ summed.map (fun p => p.2) ∧
    ∀ v ∈ summed.map (fun p => p.2), v ≤ highestProbability summed := by
  have htotal : ∀ a b : ℚ, (fun a b => decide (b ≤ a)) a b = true ∨
      (fun a b => decide (b ≤ a)) b a = true := by
    intro a b
    rcases le_total a b with h | h
    · exact Or.inr (decide_eq_true h)
    · exact Or.inl (decide_eq_true h)
  have htrans : ∀ a b c : ℚ, (fun a b => decide (b ≤ a)) a b = true →
      (fun a b => decide (b ≤ a)) b c = true →
      (fun a b => decide (b ≤ a)) a c = true := by
    intro a b c hab hbc
    simp only [decide_eq_true_eq] at hab hbc ⊢
    linarith
  cases hs : sortB (fun a b => decide (b ≤ a)) (summed.map (fun p => p.2)) with
  | nil =>
    have := sortB_eq_nil hs
    exact absurd (List.map_eq_nil_iff.mp this) hne
  | cons h t =>
    have hh : highestProbability summed = h := by
      unfold highestProbability
      rw [hs]
      rfl
    rw [hh]
    refine ⟨sortB_head_mem hs, ?_⟩
    intro v hv
    have := sortB_head_le htotal htrans hs v hv
    simpa [decide_eq_true_eq] using this

theorem if_sorted_cases {Lang : Type} (env : LinguaEnv Lang)
    (summed : List (Lang × ℚ)) (hneg : ∀ q ∈ summed, q.2 < 0) :
    (if summed.isEmpty then ([] : List (Lang × ℚ))
     else sortB (confidenceLe env)
       (summed.map (fun p => (p.1, highestProbability summed / p.2)))) = [] ∨
    (∃ l, (if summed.isEmpty then ([] : List (Lang × ℚ))
     else sortB (confidenceLe env)
       (summed.map (fun p => (p.1, highestProbability summed / p.2)))) = [(l, 1)]) ∨
    (∃ s2 : List (Lang × ℚ), (∀ q ∈ s2, q.2 < 0) ∧ s2 ≠ [] ∧
      (if summed.isEmpty then ([] : List (Lang × ℚ))
       else sortB (confidenceLe env)
         (summed.map (fun p => (p.1, highestProbability summed / p.2)))) =
        sortB (confidenceLe env)
          (s2.map (fun q => (q.1, highestProbability s2 / q.2)))) := by
  cases hemp : summed.isEmpty with
  | true => exact Or.inl (by simp)
  | false =>
    refine Or.inr (Or.inr ⟨summed, hneg, ?_, by simp⟩)
    intro h
    rw [h] at hemp
    simp at hemp

theorem cv_cases {Lang : Type} [DecidableEq Lang] (env : LinguaEnv Lang)
    (tc : TextClasses) (d : LanguageDetector Lang) (ln : ℚ → ℚ)
    (ord : List Alphabet) (text : String) :
    computeLanguageConfidenceValues env tc d ln ord text = [] ∨
    (∃ l, computeLanguageConfidenceValues env tc d ln ord text = [(l, 1)]) ∨
    (∃ summed : List (Lang × ℚ), (∀ q ∈ summed, q.2 < 0) ∧ summed ≠ [] ∧
      computeLanguageConfidenceValues env tc d ln ord text =
        sortB (confidenceLe env)
          (summed.map (fun q => (q.1, highestProbability summed / q.2)))) := by
  have hstat : ∀ fl : List Lang,
      ∀ m ∈ (([1, 2, 3, 4, 5].foldl
          (statStep tc ln d (cleanUpInputText tc text.data)) (fl, [], []))).2.1,
        ∀ p ∈ m, p.2 < 0 := by
    intro fl
    exact statLoop_maps_neg tc ln d _ [1, 2, 3, 4, 5] (fl, [], []) (by simp)
  have hstat2 : ∀ fl : List Lang,
      ∀ p ∈ (([1, 2, 3, 4, 5].foldl
          (statStep tc ln d (cleanUpInputText tc text.data)) (fl, [], []))).2.2,
        1 ≤ p.2 := by
    intro fl
    exact statLoop_ucounts_pos tc ln d _ [1, 2, 3, 4, 5] (fl, [], []) (by simp)
  simp only [computeLanguageConfidenceValues]
  split
  · exact Or.inl rfl
  · split
    · next l heq => exact Or.inr (Or.inl ⟨l, rfl⟩)
    · split
      · next l heq => exact Or.inr (Or.inl ⟨l, rfl⟩)
      · exact if_sorted_cases env _
          (sumUpProbabilities_neg _ (hstat _) (hstat2 _))

theorem confidenceLe_total {Lang : Type} (env : LinguaEnv Lang) :
    ∀ p q : Lang × ℚ, confidenceLe env p q = true ∨ confidenceLe env q p = true := by
  intro p q
  simp only [confidenceLe, Bool.or_eq_true, Bool.and_eq_true, decide_eq_true_eq]
  rcases lt_trichotomy p.2 q.2 with h | h | h
  · exact Or.inr (Or.inl h)
  · rcases Nat.le_total (env.langIdx p.1) (env.langIdx q.1) with h2 | h2
    · exact Or.inl (Or.inr ⟨h, h2⟩)
    · exact Or.inr (Or.inr ⟨h.symm, h2⟩)
  · exact Or.inl (Or.inl h)

theorem confidenceLe_trans {Lang : Type} (env : LinguaEnv Lang) :
    ∀ p q r : Lang × ℚ, confidenceLe env p q = true →
      confidenceLe env q r = true → confidenceLe env p r = true := by
  intro p q r hpq hqr
  simp only [confidenceLe, Bool.or_eq_true, Bool.and_eq_true,
    decide_eq_true_eq] at hpq hqr ⊢
  rcases hpq with h1 | ⟨h1, h1i⟩ <;> rcases hqr with h2 | ⟨h2, h2i⟩
  · exact Or.inl (lt_trans h2 h1)
  · exact Or.inl (h2 ▸ h1)
  · exact Or.inl (h1 ▸ h2)
  · exact Or.inr ⟨h1.trans h2, le_trans h1i h2i⟩

theorem confidenceLe_val {Lang : Type} (env : LinguaEnv Lang) {p q : Lang × ℚ}
    (h : confidenceLe env p q = true) : q.2 ≤ p.2 := by
  simp only [confidenceLe, Bool.or_eq_true, Bool.and_eq_true,
    decide_eq_true_eq] at h
  rcases h with h | ⟨h, _⟩
  · exact le_of_lt h
  · exact le_of_eq h.symm

/-- C5: every value in the confidence list lies in the interval (0, 1]
and, when the list is non-empty, the first element's value equals 1. -/
theorem c5_confidence_values_in_unit_interval {Lang : Type} [DecidableEq Lang]
    (env : LinguaEnv Lang) (tc : TextClasses) (d : LanguageDetector Lang)
    (ln : ℚ → ℚ) (ord : List Alphabet) (text : String) (p : Lang × ℚ)
    (hp : p ∈ computeLanguageConfidenceValues env tc d ln ord text) :
    (0 < p.2 ∧ p.2 ≤ 1) ∧
    ∀ q, (computeLanguageConfidenceValues env tc d ln ord text).head? = some q →
      q.2 = 1 := by
  rcases cv_cases env tc d ln ord text with hc | ⟨l, hc⟩ | ⟨summed, hneg, hne, hc⟩
  · rw [hc] at hp
    exact absurd hp (by simp)
  · constructor
    · rw [hc] at hp
      have hp1 : p = (l, 1) := List.mem_singleton.mp hp
      rw [hp1]
      exact ⟨one_pos, le_refl 1⟩
    · intro q hq
      rw [hc] at hq
      simp only [List.head?_cons, Option.some.injEq] at hq
      rw [← hq]
  · rcases highestProbability_spec hne with ⟨hmem, hmax⟩
    rcases List.mem_map.mp hmem with ⟨pm, hpm, hpmv⟩
    have hH : highestProbability summed < 0 := hpmv ▸ hneg pm hpm
    have hvals : ∀ q ∈ summed.map (fun q => (q.1, highestProbability summed / q.2)),
        0 < q.2 ∧ q.2 ≤ 1 := by
      intro q hq
      rcases List.mem_map.mp hq with ⟨r, hr, hrq⟩
      have hr2 : r.2 < 0 := hneg r hr
      have hrH : r.2 ≤ highestProbability summed :=
        hmax r.2 (List.mem_map.mpr ⟨r, hr, rfl⟩)
      rw [← hrq]
      constructor
      · exact div_pos_of_neg_of_neg hH hr2
      · have heq2 : highestProbability summed / r.2 =
            (-(highestProbability summed)) / (-(r.2)) := by
          rw [neg_div_neg_eq]
        rw [heq2]
        rw [div_le_one (by linarith)]
        linarith
    constructor
    · rw [hc] at hp
      exact hvals p ((sortB_perm (confidenceLe env) _).subset hp)
    · intro q hq
      rw [hc] at hq
      cases hs : sortB (confidenceLe env)
          (summed.map (fun q => (q.1, highestProbability summed / q.2))) with
      | nil =>
        rw [hs] at hq
        exact absurd hq (by simp)
      | cons q0 t =>
        rw [hs] at hq
        simp only [List.head?_cons, Option.some.injEq] at hq
        have hq0mem : q0 ∈ summed.map (fun q => (q.1, highestProbability summed / q.2)) :=
          sortB_head_mem hs
        have hone : (pm.1, highestProbability summed / pm.2) ∈
            summed.map (fun q => (q.1, highestProbability summed / q.2)) :=
          List.mem_map.mpr ⟨pm, hpm, rfl⟩
        have honev : highestProbability summed / pm.2 = 1 := by
          rw [hpmv]
          exact div_self (ne_of_lt hH)
        have hle1 : (q0).2 ≤ 1 := (hvals q0 hq0mem).2
        have hge1 : 1 ≤ q0.2 := by
          have hrel := sortB_head_le (confidenceLe_total env)
            (confidenceLe_trans env) hs _ hone
          have := confidenceLe_val env hrel
          simpa [honev] using this
        rw [← hq]
        exact le_antisymm hle1 hge1

/-- C5 witness: on the concrete Greek-alphabet input the list is
non-empty, its single value 1 lies in (0, 1] and the head value is 1. -/
theorem c5_witness :
    (0 < ((TLang.greekLang, (1 : ℚ)) : TLang × ℚ).2 ∧
      ((TLang.greekLang, (1 : ℚ)) : TLang × ℚ).2 ≤ 1) ∧
    ((TLang.greekLang, (1 : ℚ)) : TLang × ℚ).2 = 1 :=
  ⟨(c5_confidence_values_in_unit_interval envGC concreteTC detGC id
      alphabetList "α" (TLang.greekLang, 1) (by decide)).1,
   (c5_confidence_values_in_unit_interval envGC concreteTC detGC id
      alphabetList "α" (TLang.greekLang, 1) (by decide)).2
     (TLang.greekLang, 1) (by decide)⟩

/-! ### Claim C7 -/

theorem cv_head_two_sorted {Lang : Type} [DecidableEq Lang]
    (env : LinguaEnv Lang) (tc : TextClasses) (d : LanguageDetector Lang)
    (ln : ℚ → ℚ) (ord : List Alphabet) (text : String) :
    ∀ p1 p2 rest, computeLanguageConfidenceValues env tc d ln ord text =
      p1 :: p2 :: rest → p2.2 ≤ p1.2 := by
  intro p1 p2 rest hcv
  rcases cv_cases env tc d ln ord text with hc | ⟨l, hc⟩ | ⟨summed, _, _, hc⟩
  · rw [hc] at hcv
    exact absurd hcv (by simp)
  · rw [hc] at hcv
    have := congrArg List.length hcv
    simp at this
  · rw [hc] at hcv
    have hpw := sortB_pairwise (confidenceLe_total env) (confidenceLe_trans env)
      (summed.map (fun q => (q.1, highestProbability summed / q.2)))
    rw [hcv] at hpw
    exact confidenceLe_val env
      ((List.pairwise_cons.mp hpw).1 p2 (List.mem_cons_self p2 rest))

/-- C7: `detect_language_of` returns `None` for an empty confidence
list, `Some(first)` for a singleton, and with `d` the difference of the
top two values it returns `None` when `d` is below the machine epsilon
or below the configured minimum relative distance, and `Some(first)`
otherwise; the code's absolute value on `d` is redundant because the
list is sorted in descending value order. -/
theorem c7_detect_language_of_described {Lang : Type} [DecidableEq Lang]
    (env : LinguaEnv Lang) (tc : TextClasses) (d : LanguageDetector Lang)
    (ln : ℚ → ℚ) (ord : List Alphabet) (text : String) :
    detectLanguageOf env tc d ln ord text =
      detectLanguageOfDescribed env tc d ln ord text := by
  unfold detectLanguageOf detectLanguageOfDescribed
  split
  · rfl
  · rfl
  · next p1 p2 rest heq =>
    have hd : 0 ≤ p1.2 - p2.2 := by
      have := cv_head_two_sorted env tc d ln ord text p1 p2 rest heq
      linarith
    rw [abs_of_nonneg hd]
    by_cases h1 : p1.2 - p2.2 < f64Epsilon
    · rw [if_pos h1, if_pos (Or.inl h1)]
    · rw [if_neg h1]
      by_cases h2 : p1.2 - p2.2 < d.minimumRelativeDistance
      · rw [if_pos h2, if_pos (Or.inr h2)]
      · rw [if_neg h2, if_neg (by tauto)]

/-! ### Claim C3 (amended theorem) -/

theorem collapseWsAux_head_not_ws (tc : TextClasses) :
    ∀ l : List Char, ∀ c, (collapseWsAux tc l true).head? = some c →
      tc.isWs c = false
  | [], c => by intro h; exact absurd h (by simp [collapseWsAux])
  | c0 :: rest, c => by
    intro h
    by_cases h0 : tc.isWs c0 = true
    · simp only [collapseWsAux, h0, if_true] at h
      exact collapseWsAux_head_not_ws tc rest c h
    · simp only [collapseWsAux, h0, if_false, Bool.false_eq_true] at h
      simp only [List.head?_cons, Option.some.injEq] at h
      rw [← h]
      exact Bool.not_eq_true _ |>.mp h0

theorem collapseWsAux_chain (tc : TextClasses) :
    ∀ (l : List Char) (b : Bool), (collapseWsAux tc l b).Chain'
      (fun a b => ¬(tc.isWs a = true ∧ tc.isWs b = true))
  | [], _ => by simp [collapseWsAux]
  | c0 :: rest, b => by
    by_cases h0 : tc.isWs c0 = true
    · cases b with
      | true =>
        simp only [collapseWsAux, h0, if_true]
        exact collapseWsAux_chain tc rest true
      | false =>
        simp only [collapseWsAux, h0, if_true]
        refine List.chain'_cons'.mpr ⟨?_, collapseWsAux_chain tc rest true⟩
        intro x hx
        have := collapseWsAux_head_not_ws tc rest x hx
        intro hcon
        rw [this] at hcon
        exact absurd hcon.2 (by simp)
    · simp only [collapseWsAux, h0, if_false, Bool.false_eq_true]
      refine List.chain'_cons'.mpr ⟨?_, collapseWsAux_chain tc rest false⟩
      intro x _
      intro hcon
      exact h0 hcon.1

theorem collapseWsAux_mem (tc : TextClasses) :
    ∀ (l : List Char) (b : Bool) (c : Char), c ∈ collapseWsAux tc l b →
      c = ' ' ∨ (c ∈ l ∧ tc.isWs c = false)
  | [], b, c => by intro h; exact absurd h (by simp [collapseWsAux])
  | c0 :: rest, b, c => by
    intro h
    by_cases h0 : tc.isWs c0 = true
    · cases b with
      | true =>
        simp only [collapseWsAux, h0, if_true] at h
        rcases collapseWsAux_mem tc rest true c h with h1 | ⟨h1, h2⟩
        · exact Or.inl h1
        · exact Or.inr ⟨List.mem_cons_of_mem c0 h1, h2⟩
      | false =>
        simp only [collapseWsAux, h0, if_true] at h
        rcases List.mem_cons.mp h with h1 | h1
        · exact Or.inl h1
        · rcases collapseWsAux_mem tc rest true c h1 with h2 | ⟨h2, h3⟩
          · exact Or.inl h2
          · exact Or.inr ⟨List.mem_cons_of_mem c0 h2, h3⟩
    · simp only [collapseWsAux, h0, if_false, Bool.false_eq_true] at h
      rcases List.mem_cons.mp h with h1 | h1
      · refine Or.inr ⟨h1 ▸ List.mem_cons_self c0 rest, ?_⟩
        rw [h1]
        exact Bool.not_eq_true _ |>.mp h0
      · rcases collapseWsAux_mem tc rest false c h1 with h2 | ⟨h2, h3⟩
        · exact Or.inl h2
        · exact Or.inr ⟨List.mem_cons_of_mem c0 h2, h3⟩

theorem chain'_dropWhile {α : Type} {R : α → α → Prop} (p : α → Bool) :
    ∀ {l : List α}, l.Chain' R → (l.dropWhile p).Chain' R
  | [], _ => by simp [List.dropWhile]
  | a :: l, h => by
    by_cases hp : p a = true
    · simp only [List.dropWhile, hp, if_true]
      exact chain'_dropWhile p (List.chain'_cons'.mp h).2
    · simp only [List.dropWhile, hp, if_false, Bool.false_eq_true]
      exact h

theorem chain'_sym_reverse {α : Type} {R : α → α → Prop}
    (hsym : ∀ a b, R a b → R b a) {l : List α} (h : l.Chain' R) :
    l.reverse.Chain' R := by
  rw [List.chain'_reverse]
  exact h.imp (fun a b hr => hsym a b hr)

theorem mem_trimWs (tc : TextClasses) {l : List Char} {c : Char}
    (hc : c ∈ trimWs tc l) : c ∈ l := by
  unfold trimWs at hc
  have h1 := List.mem_reverse.mp hc
  have h2 := (List.dropWhile_sublist tc.isWs).subset h1
  have h3 := List.mem_reverse.mp h2
  exact (List.dropWhile_sublist tc.isWs).subset h3

theorem chain'_trimWs (tc : TextClasses) {l : List Char}
    (h : l.Chain' (fun a b => ¬(tc.isWs a = true ∧ tc.isWs b = true))) :
    (trimWs tc l).Chain' (fun a b => ¬(tc.isWs a = true ∧ tc.isWs b = true)) := by
  have hsym : ∀ a b : Char, ¬(tc.isWs a = true ∧ tc.isWs b = true) →
      ¬(tc.isWs b = true ∧ tc.isWs a = true) := by
    intro a b hab hcon
    exact hab ⟨hcon.2, hcon.1⟩
  unfold trimWs
  exact chain'_sym_reverse hsym
    (chain'_dropWhile _ (chain'_sym_reverse hsym (chain'_dropWhile _ h)))

theorem collapseWsAux_fixpoint (tc : TextClasses) :
    ∀ l : List Char,
      (∀ c ∈ l, tc.isWs c = true → c = ' ') →
      l.Chain' (fun a b => ¬(tc.isWs a = true ∧ tc.isWs b = true)) →
      collapseWsAux tc l false = l ∧
      ((∀ c, l.head? = some c → tc.isWs c = false) → collapseWsAux tc l true = l)
  | [], _, _ => ⟨rfl, fun _ => rfl⟩
  | c :: rest, hws, hch => by
    have hch2 := (List.chain'_cons'.mp hch).2
    have hhead := (List.chain'_cons'.mp hch).1
    have hws2 : ∀ x ∈ rest, tc.isWs x = true → x = ' ' :=
      fun x hx => hws x (List.mem_cons_of_mem c hx)
    have IH := collapseWsAux_fixpoint tc rest hws2 hch2
    by_cases hc : tc.isWs c = true
    · have hcsp : c = ' ' := hws c (List.mem_cons_self c rest) hc
      have hresthead : ∀ x, rest.head? = some x → tc.isWs x = false := by
        intro x hx
        have hr := hhead x (Option.mem_def.mpr hx)
        rcases Bool.eq_false_or_eq_true (tc.isWs x) with h | h
        · exact absurd ⟨hc, h⟩ hr
        · exact h
      constructor
      · simp only [collapseWsAux, hc, if_true, Bool.false_eq_true, if_false]
        rw [IH.2 hresthead, hcsp]
      · intro hhd
        have := hhd c rfl
        rw [hc] at this
        exact absurd this (by simp)
    · constructor
      · simp only [collapseWsAux, hc, if_false, Bool.false_eq_true]
        rw [IH.1]
      · intro _
        simp only [collapseWsAux, hc, if_false, Bool.false_eq_true]
        rw [IH.1]

/-- C3 (amended): cleaning is idempotent up to trimming: a second pass
changes the cleaned text only by removing the leading or trailing
whitespace that punctuation and number removal can leave behind, i.e.
`clean_up (clean_up t) = trim (clean_up t)` for every input. -/
theorem c3_clean_up_idempotent_up_to_trim (tc : TextClasses) (t : List Char)
    (h1 : ∀ c, tc.lowerChar (tc.lowerChar c) = tc.lowerChar c)
    (h2 : tc.lowerChar ' ' = ' ')
    (h4 : tc.isPunct ' ' = false) (h5 : tc.isNum ' ' = false) :
    cleanUpInputText tc (cleanUpInputText tc t) =
      trimWs tc (cleanUpInputText tc t) := by
  set out := cleanUpInputText tc t with hout
  have houtc : out = collapseWs tc
      ((((trimWs tc t).map tc.lowerChar).filter (fun c => !tc.isPunct c)).filter
        (fun c => !tc.isNum c)) := rfl
  have hfacts : ∀ c ∈ out, (tc.isWs c = true → c = ' ') ∧ tc.lowerChar c = c ∧
      tc.isPunct c = false ∧ tc.isNum c = false := by
    intro c hc
    rw [houtc] at hc
    rcases collapseWsAux_mem tc _ false c hc with hsp | ⟨hmem, hnws⟩
    · subst hsp
      exact ⟨fun _ => rfl, h2, h4, h5⟩
    · have hnum := List.of_mem_filter hmem
      have hmem2 := List.mem_of_mem_filter hmem
      have hpunct := List.of_mem_filter hmem2
      have hmem3 := List.mem_of_mem_filter hmem2
      rcases List.mem_map.mp hmem3 with ⟨x, _, hx⟩
      refine ⟨?_, ?_, ?_, ?_⟩
      · intro hw
        rw [hnws] at hw
        exact absurd hw (by simp)
      · rw [← hx]
        exact h1 x
      · simpa using hpunct
      · simpa using hnum
  have hchain : out.Chain' (fun a b => ¬(tc.isWs a = true ∧ tc.isWs b = true)) := by
    rw [houtc]
    exact collapseWsAux_chain tc _ false
  have htm : ∀ c ∈ trimWs tc out, c ∈ out := fun c hc => mem_trimWs tc hc
  have hmap : (trimWs tc out).map tc.lowerChar = trimWs tc out := by
    have hmc : (trimWs tc out).map tc.lowerChar = (trimWs tc out).map id :=
      List.map_congr_left (fun c hc => (hfacts c (htm c hc)).2.1)
    rw [hmc, List.map_id]
  have hfp : (trimWs tc out).filter (fun c => !tc.isPunct c) = trimWs tc out :=
    List.filter_eq_self.mpr (fun c hc => by
      rw [(hfacts c (htm c hc)).2.2.1]
      rfl)
  have hfn : (trimWs tc out).filter (fun c => !tc.isNum c) = trimWs tc out :=
    List.filter_eq_self.mpr (fun c hc => by
      rw [(hfacts c (htm c hc)).2.2.2]
      rfl)
  have hcoll : collapseWs tc (trimWs tc out) = trimWs tc out :=
    (collapseWsAux_fixpoint tc (trimWs tc out)
      (fun c hc => (hfacts c (htm c hc)).1) (chain'_trimWs tc hchain)).1
  show cleanUpInputText tc out = trimWs tc out
  show collapseWs tc
      ((((trimWs tc out).map tc.lowerChar).filter (fun c => !tc.isPunct c)).filter
        (fun c => !tc.isNum c)) = trimWs tc out
  rw [hmap, hfp, hfn]
  exact hcoll

/-- C3 witness: the amended theorem applied to the concrete classes and
the input whose cleaned form carries a trailing space. -/
theorem c3_witness :
    cleanUpInputText concreteTC (cleanUpInputText concreteTC "a. .".data) =
      trimWs concreteTC (cleanUpInputText concreteTC "a. .".data) :=
  c3_clean_up_idempotent_up_to_trim concreteTC "a. .".data (fun _ => rfl) rfl
    (by decide) (by decide)
